import Mathlib

/-!
# Verification of the protobuf3 wire encoder (mistsys/protobuf)

Shallow embedding of the schema compiler (`properties.go`) and the wire
encoder engine (`encode.go`, provided as `src/unnamed/part_000`) of the
`protobuf3` package, together with proofs of the specification claims.

Byte buffers are modelled as `List Nat`, each element standing for one
byte (the definitions only ever produce values `< 256`).  Machine
integers are modelled as `Nat`/`Int` with explicit `% 2^w` where the Go
code truncates.
-/

set_option maxRecDepth 8192

namespace Protobuf3

/-- Canonical base-128 little-endian varint encoding: low 7 bits first,
continuation bit `0x80` on every byte except the last. -/
def varintCanon (x : Nat) : List Nat :=
  if h : x < 128 then [x]
  else (x % 128 + 128) :: varintCanon (x / 128)
decreasing_by exact Nat.div_lt_self (by omega) (by omega)

/-- The inner loop shared by both branches of `EncodeVarint`
(`for x >= 1<<7 { append(uint8(x)|0x80); x >>= 7 }; append(uint8(x))`). -/
def encodeVarintLoop (buf : List Nat) (x : Nat) : List Nat :=
  if h : x ≥ 128 then encodeVarintLoop (buf ++ [x % 256 ||| 128]) (x / 128)
  else buf ++ [x % 256]
decreasing_by exact Nat.div_lt_self (by omega) (by omega)

/-- `(*WriteBuffer).EncodeVarint` from encode.go lines 69-102, with the
32-bit fast path (`x>>32 == 0`) and the 64-bit path.  `uint8(y)` is
modelled as `y % 256`, `uint32(x)` as `x % 2^32`. -/
def EncodeVarint (buf : List Nat) (x : Nat) : List Nat :=
  let x32 := x % 2 ^ 32
  if x / 2 ^ 32 = 0 then
    if x32 < 128 then
      buf ++ [x32 % 256]
    else if x < 2 ^ 14 then
      buf ++ [x32 % 256 ||| 128, (x32 / 128) % 256]
    else
      encodeVarintLoop
        (buf ++ [x32 % 256 ||| 128, (x32 / 2 ^ 7) % 256 ||| 128])
        (x32 / 2 ^ 14)
  else
    encodeVarintLoop
      (buf ++ [x32 % 256 ||| 128, (x32 / 2 ^ 7) % 256 ||| 128,
               (x32 / 2 ^ 14) % 256 ||| 128, (x32 / 2 ^ 21) % 256 ||| 128])
      (x / 2 ^ 28)

/-- The counting loop of `SizeVarint` (`for { n++; x >>= 7; if x == 0 break }`). -/
def sizeVarintLoop (x n : Nat) : Nat :=
  let n' := n + 1
  let x' := x / 128
  if h : x' = 0 then n' else sizeVarintLoop x' n'
decreasing_by exact Nat.div_lt_self (by omega) (by omega)

/-- `SizeVarint` from encode.go lines 104-127, keeping the 32-bit /
64-bit branch split of the source. -/
def SizeVarint (x : Nat) : Nat :=
  if x / 2 ^ 32 = 0 then sizeVarintLoop (x % 2 ^ 32) 0
  else sizeVarintLoop x 0

/-- `(*WriteBuffer).EncodeRawBytes` (encode.go 178-184): varint byte
count followed by the raw bytes. -/
def EncodeRawBytes (buf : List Nat) (b : List Nat) : List Nat :=
  EncodeVarint buf b.length ++ b

/-- The tag-code precalculation loop of `Properties.setEnc`
(properties.go 591-599): `for x > 127 { emit 0x80|uint8(x&0x7F); x >>= 7 };
emit uint8(x)`.  `x & 0x7F` is written `x % 128`. -/
def tagcodeLoop (x : Nat) : List Nat :=
  if h : x > 127 then (x % 128 ||| 128) :: tagcodeLoop (x / 128) else [x]
decreasing_by exact Nat.div_lt_self (by omega) (by omega)

/-- `p.tagcode`: the varint encoding of `Tag<<3 | wiretype` where `Tag`
is a `uint32` (hence the `% 2^32` on the shift). -/
def tagcode (tag wire : Nat) : List Nat :=
  tagcodeLoop (tag * 8 % 2 ^ 32 ||| wire)

/-- The encoder's in-flight state: the output byte buffer plus the
error recorded on the operation (the `err` field of `Buffer`). -/
structure Buffer where
  buf : List Nat
  err : Option String
deriving DecidableEq

/-- `errRepeatedHasNil` (encode.go 53). -/
def errRepeatedHasNil : String := "protobuf3: repeated field has nil element"

/-- Modelled from the spec: `(*Buffer).noteError` is defined in a file of
this repository that is not under src/.  Per the spec, encoding errors are
"recorded on the in-flight encode operation" and cause `Marshal` to return
the error; the first recorded error is kept. -/
def noteError (o : Buffer) (e : String) : Buffer :=
  match o.err with
  | some _ => o
  | none => { o with err := some e }

/-- Overwrite the bytes of `buf` at positions `pos ..` with `bytes`.
This is the net effect of Go's truncate-to-`pos`, append-in-place (the
backing array always has enough capacity at the call sites), re-extend
sequence used by the length backpatchers. -/
def splice (buf : List Nat) (pos : Nat) (bytes : List Nat) : List Nat :=
  buf.take pos ++ bytes ++ buf.drop (pos + bytes.length)

/-- The backpatch logic of `enc_len_thing` (encode.go 1280-1301) after
`enc()` has run: `iLen` is the buffer length before the 4-byte
placeholder was reserved, `buf` the buffer after the nested encoder
appended the body.  `copy` is memmove (reads the source before
overwriting), so the overlapping shifts are modelled by reading the body
`buf.drop iMsg` once.  Go's `zeroes[:x]` slices a 20-byte array of
zeroes ("longer than any conceivable SizeVarint": `x ≤ 6` whenever the
body length fits in an `int`); it is modelled as `List.replicate x 0`. -/
def enc_len_post (iLen : Nat) (buf : List Nat) : List Nat :=
  let iMsg := iLen + 4
  let lMsg := buf.length - iMsg
  let lLen := SizeVarint lMsg
  let buf1 :=
    if 4 < lLen then
      -- actual length is larger than the reserved span: move msg right
      (buf ++ List.replicate (lLen - 4) 0).take (iMsg + (lLen - 4)) ++
        (buf.drop iMsg).take lMsg
    else if lLen < 4 then
      -- actual length is smaller: move msg left and shrink the buffer
      buf.take (iMsg - (4 - lLen)) ++ (buf.drop iMsg).take lMsg
    else buf
  splice buf1 iLen (EncodeVarint [] lMsg)

/-- `enc_len_thing` (encode.go 1280-1301) specialised to a nested
encoder `enc()` that appends the byte sequence `body`: reserve four
placeholder bytes, run the encoder, then backpatch the length. -/
def enc_len_thing (pre body : List Nat) : List Nat :=
  enc_len_post pre.length (pre ++ [0, 0, 0, 0] ++ body)

/-- `uint64(i)` for a signed Go integer: two's-complement
reinterpretation. -/
def toUInt64 (i : Int) : Nat := (i % (2 ^ 64 : Int)).toNat

/-- `(*WriteBuffer).EncodeTimestamp` (encode.go 1313-1325): seconds as a
varint under tag 1 (`1<<3|WireVarint = 8`) and nanos as a varint under
tag 2 (`2<<3|WireVarint = 16`), both written unconditionally.  `secs`
is `ts.Unix()` and `nanos` the nanosecond remainder. -/
def EncodeTimestamp (buf : List Nat) (secs nanos : Int) : List Nat :=
  EncodeVarint (EncodeVarint (buf ++ [8]) (toUInt64 secs) ++ [16])
    (toUInt64 nanos)

/-- A field value together with its storage shape, covering the field
shapes the claims are about.  Scalars hold the value the Go encoder
reads through the field offset (integers already cast to `uint64`);
nested messages hold the (tag, value) list of the nested struct's
retained fields in compiled (tag-sorted) order. -/
inductive FVal where
  /-- a `bool` field (`enc_bool`) -/
  | vbool (b : Bool)
  /-- an integer field encoded as a varint (`enc_int64` and friends),
  already cast to `uint64` -/
  | vuint (x : Nat)
  /-- a `[]byte` field (`enc_slice_byte`) -/
  | vbytes (bs : List Nat)
  /-- a `[N]byte` field (`enc_array_byte`; `N = bs.length`) -/
  | vbytesArr (bs : List Nat)
  /-- a `[N]bool` field (`enc_array_packed_bool`) -/
  | vboolArr (bs : List Bool)
  /-- an embedded struct field (`enc_struct_message`) -/
  | vmsg (fs : List (Nat × FVal))
  /-- a `*struct` field (`enc_ptr_struct_message`) -/
  | vptrmsg (m : Option (List (Nat × FVal)))
  /-- a `[]*struct` field (`enc_slice_ptr_struct_message`, plain structs:
  `isAppender` and `isMarshaler` are false) -/
  | vslcptrmsg (ms : List (Option (List (Nat × FVal))))
  /-- a `time.Time` field: encoded through the synthesized
  `StructProperties` (properties.go 669-681) whose single entry
  dispatches to `enc_time_Time`; held as the (Unix seconds, nanosecond
  remainder) pair that `EncodeTimestamp` computes -/
  | vtime (secs nanos : Int)

/-- The per-element loop of `enc_array_packed_bool` (encode.go 675-681):
`p.valEnc(o, v)` with `v ∈ {0, 1}`. -/
def packBools (buf : List Nat) (bs : List Bool) : List Nat :=
  match bs with
  | [] => buf
  | b :: rest => packBools (EncodeVarint buf (if b then 1 else 0)) rest

mutual

/-- Field dispatch: the `p.enc(o, p, base)` call of `enc_struct`, with
the dispatch function selected per field shape as `Properties.setEnc`
does.  Wiretype 0 (varint) for scalars, 2 (bytes) for the
length-delimited shapes.  Zero-length arrays get `enc_nothing`
(properties.go 507-510). -/
def enc_field (o : Buffer) (tag : Nat) (v : FVal) : Buffer :=
  match v with
  | .vbool b =>
      if !b then o
      else { o with buf := EncodeVarint (o.buf ++ tagcode tag 0) 1 }
  | .vuint x =>
      if x = 0 then o
      else { o with buf := EncodeVarint (o.buf ++ tagcode tag 0) x }
  | .vbytes bs =>
      if bs.length = 0 then o
      else { o with buf := EncodeRawBytes (o.buf ++ tagcode tag 2) bs }
  | .vbytesArr bs =>
      if bs.length = 0 then o  -- enc_nothing, chosen at compile time
      else { o with buf := EncodeRawBytes (o.buf ++ tagcode tag 2) bs }
  | .vboolArr bs =>
      if bs.length = 0 then o  -- enc_nothing, chosen at compile time
      else
        let b1 := EncodeVarint (o.buf ++ tagcode tag 2) bs.length
        { o with buf := packBools b1 bs }
  | .vmsg fs =>
      -- enc_struct_message (encode.go 590-603)
      let iTag := o.buf.length
      let b1 := o.buf ++ tagcode tag 2
      let iLen := b1.length
      let inner := enc_struct { o with buf := b1 ++ [0, 0, 0, 0] } fs
      let b2 := enc_len_post iLen inner.buf
      if b2.length = iLen + 1 ∧ b2.getD iLen 0 = 0 then
        { buf := b2.take iTag, err := inner.err }
      else
        { buf := b2, err := inner.err }
  | .vptrmsg none => o  -- a nil pointer encodes as nothing
  | .vptrmsg (some fs) =>
      -- enc_ptr_struct_message (encode.go 639-649): no elision
      let b1 := o.buf ++ tagcode tag 2
      let inner := enc_struct { o with buf := b1 ++ [0, 0, 0, 0] } fs
      { buf := enc_len_post b1.length inner.buf, err := inner.err }
  | .vslcptrmsg ms => enc_slice_ptr_struct_message o tag ms
  | .vtime s n =>
      -- enc_struct_message over the synthesized time.Time schema, whose
      -- enc_struct reduces to the single enc_time_Time dispatch
      let iTag := o.buf.length
      let b1 := o.buf ++ tagcode tag 2
      let iLen := b1.length
      let b2 := enc_len_post iLen (EncodeTimestamp (b1 ++ [0, 0, 0, 0]) s n)
      if b2.length = iLen + 1 ∧ b2.getD iLen 0 = 0 then
        { buf := b2.take iTag, err := o.err }
      else
        { buf := b2, err := o.err }

/-- `enc_struct` (encode.go 1262-1270): invoke every retained field's
dispatch function in the compiled order (`prop.props` is the tag-sorted
field sequence produced by the schema compiler). -/
def enc_struct (o : Buffer) (fs : List (Nat × FVal)) : Buffer :=
  match fs with
  | [] => o
  | (t, v) :: rest => enc_struct (enc_field o t v) rest

/-- `enc_slice_ptr_struct_message` (encode.go 973-1024), plain-struct
branch: per element, a nil pointer records `errRepeatedHasNil` and
stops; otherwise tag plus length-prefixed body, with no elision of
empty elements. -/
def enc_slice_ptr_struct_message (o : Buffer) (tag : Nat)
    (ms : List (Option (List (Nat × FVal)))) : Buffer :=
  match ms with
  | [] => o
  | none :: _ => noteError o errRepeatedHasNil
  | some fs :: rest =>
      let b1 := o.buf ++ tagcode tag 2
      let inner := enc_struct { o with buf := b1 ++ [0, 0, 0, 0] } fs
      enc_slice_ptr_struct_message
        { buf := enc_len_post b1.length inner.buf, err := inner.err } tag rest

end

/-- `Marshal` (encode.go 224-273) for a plain `*struct` message: run
`enc_struct` on a fresh buffer; on a recorded error return it and
discard all bytes, otherwise return the bytes. -/
def Marshal (fs : List (Nat × FVal)) : Except String (List Nat) :=
  let o := enc_struct { buf := [], err := none } fs
  match o.err with
  | some e => Except.error e
  | none => Except.ok o.buf

/-- The compiler's field reordering: `sort.Sort(prop)` with
`StructProperties.Less` comparing tag numbers (properties.go 93-97,
772-773).  Tags are unique after the duplicate check, so any comparison
sort yields this same result. -/
def sortByTag (fs : List (Nat × FVal)) : List (Nat × FVal) :=
  fs.mergeSort (fun a b => a.1 ≤ b.1)

/-- The bytes a single field dispatch appends (its tag code followed by
its payload), read off an empty buffer. -/
def fieldBytes (t : Nat) (v : FVal) : List Nat :=
  (enc_field { buf := [], err := none } t v).buf

/-- `time.Time{}.Unix()`: the Unix seconds of Go's zero time value. -/
def zeroTimeSecs : Int := -62135596800

/-- First-error composition: the error state after running an encoder
whose own first recorded error is `b` on a buffer already carrying
`a`. -/
def firstErr (a b : Option String) : Option String :=
  match a with
  | some e => some e
  | none => b

/-- The byte sequence `EncodeTimestamp` appends: both fields written
unconditionally. -/
def timestampBody (secs nanos : Int) : List Nat :=
  8 :: (varintCanon (toUInt64 secs) ++ 16 :: varintCanon (toUInt64 nanos))

mutual

/-- Every field of the value holds its Go type's zero value. -/
def isZeroFVal : FVal → Bool
  | .vbool b => !b
  | .vuint x => x == 0
  | .vbytes bs => bs.isEmpty
  | .vbytesArr bs => bs.all (· == 0)
  | .vboolArr bs => bs.all (fun b => !b)
  | .vmsg fs => isZeroFields fs
  | .vptrmsg m => m.isNone
  | .vslcptrmsg ms => ms.isEmpty
  | .vtime s n => s == zeroTimeSecs && n == 0

def isZeroFields : List (Nat × FVal) → Bool
  | [] => true
  | (_, v) :: rest => isZeroFVal v && isZeroFields rest

end

mutual

/-- No field (recursively through embedded messages) is a fixed-size
array of nonzero length or a `time.Time`: the field shapes whose
encoders emit bytes even at the zero value. -/
def plainFVal : FVal → Bool
  | .vbytesArr bs => bs.isEmpty
  | .vboolArr bs => bs.isEmpty
  | .vtime _ _ => false
  | .vmsg fs => plainFields fs
  | _ => true

def plainFields : List (Nat × FVal) → Bool
  | [] => true
  | (_, v) :: rest => plainFVal v && plainFields rest

end

mutual

/-- The encoder will reach a nil element inside a repeated
pointer-to-struct field of this value. -/
def hasNilFVal : FVal → Bool
  | .vmsg fs => hasNilFields fs
  | .vptrmsg (some fs) => hasNilFields fs
  | .vslcptrmsg ms => hasNilElems ms
  | _ => false

def hasNilFields : List (Nat × FVal) → Bool
  | [] => false
  | (_, v) :: rest => hasNilFVal v || hasNilFields rest

def hasNilElems : List (Option (List (Nat × FVal))) → Bool
  | [] => false
  | none :: _ => true
  | some fs :: rest => hasNilFields fs || hasNilElems rest

end

/-- The two-field body C7 claims for a timestamp: seconds and nanos each
individually elided when zero.  (This follows the claim's words; the
source's `EncodeTimestamp` elides neither.) -/
def claimedTimestampBody (secs nanos : Int) : List Nat :=
  (if secs = 0 then [] else 8 :: varintCanon (toUInt64 secs)) ++
  (if nanos = 0 then [] else 16 :: varintCanon (toUInt64 nanos))

/-- The parse outcome of one struct field's `protobuf:"..."` metadata
string (`Properties.Parse` / `Properties.init`): skipped (`"-"`),
erroneous (missing or unparsable metadata, non-positive tag — the
compiler loop logs and drops such a field), or a valid tag number. -/
inductive TagSpec where
  | skip
  | bad
  | tagged (t : Nat)
deriving DecidableEq

/-- One struct field as the schema compiler sees it: its name, parse
outcome, and — when it is a (pointer-to-)struct-typed field — the name
of the referenced struct type, which `Properties.setEnc` compiles
recursively via `getPropertiesLocked`. -/
structure FieldDecl where
  fname : String
  spec : TagSpec
  sub : Option String
deriving DecidableEq

/-- The universe of struct types, keyed by name. -/
abbrev Env := List (String × List FieldDecl)

/-- `propertiesMap`: type name to compiled field order.  `some none`
means the placeholder installed before a type's own fields are compiled
(in Go the yet-unfilled `*StructProperties`); `some (some order)` a
completed schema. -/
abbrev Cache := List (String × Option (List Nat))

/-- Map insertion/update (`propertiesMap[t] = prop`). -/
def cacheSet (c : Cache) (k : String) (v : Option (List Nat)) : Cache :=
  match c with
  | [] => [(k, v)]
  | (k', v') :: rest =>
      if k' = k then (k, v) :: rest else (k', v') :: cacheSet rest k v

/-- The panic message of the duplicate-tag check (properties.go
744-750). -/
def dupTagMsg (sname fname : String) (t : Nat) : String :=
  "protobuf3: duplicate tag " ++ toString t ++ " on " ++ sname ++ "." ++ fname

/-- Result of a schema compilation: the updated cache, a panic (Go
aborts by panicking), or fuel exhaustion (the recursion-depth bound of
the fueled model; proven unreachable). -/
inductive CResult where
  | ok (cache : Cache)
  | panic (msg : String)
  | nofuel
deriving DecidableEq

/-- Result of the compiler's field loop: cache plus the retained
`(tag, field index)` list, or panic / fuel exhaustion. -/
inductive LResult where
  | ok (cache : Cache) (order : List (Nat × Nat))
  | panic (msg : String)
  | nofuel
deriving DecidableEq

mutual

/-- `getPropertiesLocked` (properties.go 712-776): return a cached (or
in-progress) schema if present; otherwise install a placeholder, run
the field loop (which recurses into struct-typed fields), sort the
retained order by ascending tag and complete the cache entry.  `fuel`
bounds the recursion depth of the shallow embedding only. -/
def getPropertiesLocked (fuel : Nat) (env : Env) (cache : Cache)
    (t : String) : CResult :=
  match fuel with
  | 0 => .nofuel
  | fuel' + 1 =>
    match cache.lookup t with
    | some _ => .ok cache
    | none =>
      let cache0 := cacheSet cache t none
      match fieldLoop fuel' env t cache0 [] [] 0 ((env.lookup t).getD []) with
      | .nofuel => .nofuel
      | .panic m => .panic m
      | .ok cache1 order =>
          let sorted := (order.mergeSort (fun a b => a.1 ≤ b.1)).map Prod.snd
          .ok (cacheSet cache1 t (some sorted))

/-- The per-field loop of `getPropertiesLocked` (properties.go 730-767):
skipped and erroneous fields are dropped (`continue`); a struct-typed
field first compiles its element type (`Properties.setEnc`); a tag
already in `seen` aborts with the duplicate-tag panic; otherwise the
field index is retained in declaration order. -/
def fieldLoop (fuel : Nat) (env : Env) (sname : String) (cache : Cache)
    (seen : List Nat) (order : List (Nat × Nat)) (idx : Nat)
    (fields : List FieldDecl) : LResult :=
  match fields with
  | [] => .ok cache order
  | fd :: rest =>
    match fd.spec with
    | .skip => fieldLoop fuel env sname cache seen order (idx + 1) rest
    | .bad => fieldLoop fuel env sname cache seen order (idx + 1) rest
    | .tagged tg =>
      match (match fd.sub with
             | none => CResult.ok cache
             | some t' => getPropertiesLocked fuel env cache t') with
      | .nofuel => .nofuel
      | .panic m => .panic m
      | .ok cache' =>
        if tg ∈ seen then .panic (dupTagMsg sname fd.fname tg)
        else fieldLoop fuel env sname cache' (tg :: seen)
               (order ++ [(tg, idx)]) (idx + 1) rest

end

/-- Number of the given type names absent from the cache. -/
def uncachedIn (names : List String) (c : Cache) : Nat :=
  (names.filter (fun n => (c.lookup n).isNone)).length

/-- Number of types of `env` not yet present in the cache: the measure
that bounds the compiler's recursion depth. -/
def uncachedCount (env : Env) (c : Cache) : Nat :=
  uncachedIn (env.map Prod.fst) c

/-- The cache only ever gains entries. -/
def cacheGrows (c c' : Cache) : Prop :=
  ∀ k, (c.lookup k).isSome → (c'.lookup k).isSome

/-- `Marshal` of a struct type as declared: the schema compiler sorts
the retained fields by ascending tag (`sort.Sort(prop)`), and the
encoder walks them in that order. -/
def MarshalDecl (fs : List (Nat × FVal)) : Except String (List Nat) :=
  Marshal (sortByTag fs)

/-- The tags of the retained fields (those neither skipped nor dropped
for a parse error), in declaration order. -/
def retainedTags : List FieldDecl → List Nat
  | [] => []
  | fd :: rest =>
    match fd.spec with
    | .tagged tg => tg :: retainedTags rest
    | _ => retainedTags rest

/-- The descriptor data `encode_appender` consults. -/
structure AppenderProps where
  tagcode : List Nat
  wireBytes : Bool
  pkgPath : String
  typeName : String
deriving DecidableEq

/-- The error built at encode.go 547 for a shrinking
`AppendProtobuf3`. -/
def buggyAppenderMsg (pkg tname : String) (l : Nat) : String :=
  "protobuf3: buggy " ++ pkg ++ ".(" ++ tname ++
    ").AppendProtobuf3 implementation returned []byte len " ++ toString l

/-- `encode_appender` (encode.go 528-579): append tag code and (for
WireBytes) a 1-byte length placeholder, let the value append itself via
`appendFn` (its `AppendProtobuf3`, modelled as a function from the
given buffer to the returned buffer and error), validate that the
buffer did not shrink, optionally remove the tag again for an elided
zero value, and backpatch the length (in place if it fits the single
placeholder byte, else shifting the appended data right).  Returns the
buffer state and the returned error, like the Go method. -/
def encode_appender (o : Buffer) (p : AppenderProps)
    (appendFn : List Nat → List Nat × Option String) (mustEncode : Bool) :
    Buffer × Option String :=
  let n1 := o.buf.length
  let b0 := o.buf ++ p.tagcode ++ (if p.wireBytes then [0] else [])
  let n2 := b0.length
  let o1 : Buffer := { buf := b0, err := o.err }
  let b := (appendFn b0).1
  match (appendFn b0).2 with
  | some e => (noteError o1 e, some e)
  | none =>
    if b.length < b0.length then
      let e := buggyAppenderMsg p.pkgPath p.typeName b.length
      (noteError o1 e, some e)
    else
      let o2 : Buffer := { buf := b, err := o.err }
      if mustEncode = false ∧ b.length = n2 then
        ({ o2 with buf := b.take n1 }, none)
      else if p.wireBytes then
        let n := b.length - n2
        if n < 128 then
          ({ o2 with buf := b.set (n2 - 1) n }, none)
        else
          let s := SizeVarint n
          let shifted := b.take (n2 - 1 + s) ++ b.drop n2
          ({ o2 with buf := splice shifted (n2 - 1) (EncodeVarint [] n) },
            none)
      else (o2, none)

/-- A deliberately buggy `AppendProtobuf3` implementation that returns
an unrelated empty slice instead of appending to its argument. -/
def buggyFn : List Nat → List Nat × Option String := fun _ => ([], none)

/-- `Marshal` of a struct whose single field is an `Appender`
(`enc_appender`, encode.go 582-587, composed with `Marshal`'s error
handling). -/
def marshal_appender_field (p : AppenderProps)
    (appendFn : List Nat → List Nat × Option String) :
    Except String (List Nat) :=
  let o := (encode_appender { buf := [], err := none } p appendFn false).1
  match o.err with
  | some e => Except.error e
  | none => Except.ok o.buf

/-- A self-referential type for the termination witness: struct `T`
holds a pointer back to `T` (tag 1) plus a plain second field
(tag 2). -/
def recEnv : Env :=
  [("T", [⟨"Self", TagSpec.tagged 1, some "T"⟩,
          ⟨"B", TagSpec.tagged 2, none⟩])]

/-- A struct whose two retained fields both carry tag 5, for the
duplicate-tag witness. -/
def dupEnv : Env :=
  [("D", [⟨"A", TagSpec.tagged 5, none⟩,
          ⟨"B", TagSpec.tagged 5, none⟩])]

/-- Helper: `(y % 256) ||| 128 = y % 128 + 128`, checked on the 256
residues. -/
theorem mod256_lor128 (y : Nat) : y % 256 ||| 128 = y % 128 + 128 := by
  have h : ∀ a : Fin 256, (a.val ||| 128) = a.val % 128 + 128 := by decide
  have h256 : y % 256 < 256 := Nat.mod_lt _ (by omega)
  have := h ⟨y % 256, h256⟩
  simpa [Nat.mod_mod_of_dvd y (by norm_num : (128:Nat) ∣ 256)] using this

theorem encodeVarintLoop_eq_canon (x : Nat) (buf : List Nat) :
    encodeVarintLoop buf x = buf ++ varintCanon x := by
  induction x using Nat.strong_induction_on generalizing buf with
  | _ x ih =>
    rw [encodeVarintLoop, varintCanon]
    by_cases h : x < 128
    · simp only [dif_pos h, dif_neg (by omega : ¬ x ≥ 128)]
      have : x % 256 = x := Nat.mod_eq_of_lt (by omega)
      simp [this]
    · simp only [dif_neg h, dif_pos (by omega : x ≥ 128)]
      rw [ih (x / 128) (Nat.div_lt_self (by omega) (by omega))]
      simp [mod256_lor128]

theorem varintCanon_length_eq_sizeLoop (x n : Nat) :
    sizeVarintLoop x n = n + (varintCanon x).length := by
  induction x using Nat.strong_induction_on generalizing n with
  | _ x ih =>
    rw [sizeVarintLoop, varintCanon]
    by_cases h : x < 128
    · have : x / 128 = 0 := Nat.div_eq_of_lt h
      simp [this, h]
    · have hx : 128 ≤ x := by omega
      have hne : ¬ x / 128 = 0 := by
        have : 1 ≤ x / 128 := (Nat.one_le_div_iff (by omega)).mpr hx
        omega
      simp only [dif_neg hne, dif_neg h]
      rw [ih (x / 128) (Nat.div_lt_self (by omega) (by omega))]
      simp [List.length_cons]
      omega

theorem varintCanon_small {x : Nat} (h : x < 128) : varintCanon x = [x] := by
  rw [varintCanon]; simp [h]

theorem varintCanon_large {x : Nat} (h : 128 ≤ x) :
    varintCanon x = (x % 128 + 128) :: varintCanon (x / 128) := by
  rw [varintCanon]; simp [Nat.not_lt_of_le h]

/-- Truncating to 32 bits commutes with small right shifts and `% 256`:
`uint8((x % 2^32) >> k) = uint8(x >> k)` for `k ≤ 24`. -/
theorem mod232_div_mod256 (x k : Nat) (hk : k ≤ 24) :
    (x % 2 ^ 32 / 2 ^ k) % 256 = (x / 2 ^ k) % 256 := by
  have h32 : (2:Nat) ^ 32 = 2 ^ k * 2 ^ (32 - k) := by
    rw [← pow_add]; congr 1; omega
  rw [h32, Nat.mod_mul_right_div_self]
  have hdvd : (256:Nat) ∣ 2 ^ (32 - k) := by
    have h8 : (256:Nat) = 2 ^ 8 := by norm_num
    rw [h8]
    exact pow_dvd_pow 2 (by omega)
  exact Nat.mod_mod_of_dvd _ hdvd

theorem div_div_pow (x a b : Nat) : x / 2 ^ a / 2 ^ b = x / 2 ^ (a + b) := by
  rw [Nat.div_div_eq_div_mul, ← pow_add]

/-- Correctness of `EncodeVarint` against the canonical varint encoding:
for every `uint64` input, both the 32-bit fast path and the 64-bit path
append exactly the canonical base-128 little-endian bytes. -/
theorem EncodeVarint_eq_canon (buf : List Nat) (x : Nat) :
    EncodeVarint buf x = buf ++ varintCanon x := by
  have d7 : x / 2 ^ 7 = x / 128 := by norm_num
  have d14 : x / 2 ^ 14 = x / 128 / 128 := by
    rw [Nat.div_div_eq_div_mul]; norm_num
  have d21 : x / 2 ^ 21 = x / 128 / 128 / 128 := by
    rw [Nat.div_div_eq_div_mul, Nat.div_div_eq_div_mul]; norm_num
  have d28 : x / 2 ^ 28 = x / 128 / 128 / 128 / 128 := by
    rw [Nat.div_div_eq_div_mul, Nat.div_div_eq_div_mul,
        Nat.div_div_eq_div_mul]; norm_num
  unfold EncodeVarint
  by_cases h32 : x / 2 ^ 32 = 0
  · have hlt : x < 2 ^ 32 := by omega
    have hx32 : x % 2 ^ 32 = x := Nat.mod_eq_of_lt hlt
    simp only [if_pos h32, hx32]
    by_cases h1 : x < 128
    · rw [if_pos h1, Nat.mod_eq_of_lt (by omega), varintCanon_small h1]
    · rw [if_neg h1]
      by_cases h2 : x < 2 ^ 14
      · have hq : x / 128 < 128 := by omega
        rw [if_pos h2, varintCanon_large (by omega), varintCanon_small hq,
            mod256_lor128, Nat.mod_eq_of_lt (by omega : x / 128 < 256)]
      · have hcanon : varintCanon x =
            (x % 128 + 128) :: (x / 128 % 128 + 128) ::
              varintCanon (x / 128 / 128) := by
          rw [varintCanon_large (by omega),
              varintCanon_large (by omega : 128 ≤ x / 128)]
        rw [if_neg h2, encodeVarintLoop_eq_canon, hcanon, mod256_lor128,
            mod256_lor128, d7, d14]
        simp
  · have hge : 2 ^ 32 ≤ x := by omega
    have e0 : x % 2 ^ 32 % 256 = x % 256 := by
      simpa using mod232_div_mod256 x 0 (by omega)
    have e7 := mod232_div_mod256 x 7 (by omega)
    have e14 := mod232_div_mod256 x 14 (by omega)
    have e21 := mod232_div_mod256 x 21 (by omega)
    have hcanon : varintCanon x =
        (x % 128 + 128) :: (x / 128 % 128 + 128) ::
          (x / 128 / 128 % 128 + 128) :: (x / 128 / 128 / 128 % 128 + 128) ::
            varintCanon (x / 128 / 128 / 128 / 128) := by
      rw [varintCanon_large (by omega),
          varintCanon_large (by omega : 128 ≤ x / 128),
          varintCanon_large (by omega : 128 ≤ x / 128 / 128),
          varintCanon_large (by omega : 128 ≤ x / 128 / 128 / 128)]
    rw [if_neg h32, encodeVarintLoop_eq_canon, hcanon, e0, e7, e14, e21,
        mod256_lor128, mod256_lor128, mod256_lor128, mod256_lor128,
        d7, d14, d21, d28]
    simp

/-- `SizeVarint` agrees with the length of the canonical varint
encoding for every `uint64` input. -/
theorem SizeVarint_eq_canon_length (x : Nat) :
    SizeVarint x = (varintCanon x).length := by
  unfold SizeVarint
  by_cases h32 : x / 2 ^ 32 = 0
  · have hlt : x < 2 ^ 32 := Nat.div_eq_zero_iff (by norm_num) |>.mp h32
    rw [if_pos h32, Nat.mod_eq_of_lt hlt, varintCanon_length_eq_sizeLoop]
    omega
  · rw [if_neg h32, varintCanon_length_eq_sizeLoop]
    omega

theorem varintCanon_length_pos (x : Nat) : 0 < (varintCanon x).length := by
  rw [varintCanon]
  by_cases h : x < 128 <;> simp [h]

theorem varintCanon_zero : varintCanon 0 = [0] := by
  rw [varintCanon]; simp

theorem EncodeRawBytes_eq (buf b : List Nat) :
    EncodeRawBytes buf b = buf ++ varintCanon b.length ++ b := by
  rw [EncodeRawBytes, EncodeVarint_eq_canon, List.append_assoc]

theorem packBools_eq (buf : List Nat) (bs : List Bool) :
    packBools buf bs = buf ++ bs.map (fun b => if b then 1 else 0) := by
  induction bs generalizing buf with
  | nil => simp [packBools]
  | cons b rest ih =>
    rw [packBools, ih, EncodeVarint_eq_canon]
    cases b <;> simp [varintCanon_zero, varintCanon_small (by omega : 1 < 128)]

theorem EncodeTimestamp_eq (buf : List Nat) (secs nanos : Int) :
    EncodeTimestamp buf secs nanos = buf ++ timestampBody secs nanos := by
  rw [EncodeTimestamp, EncodeVarint_eq_canon, EncodeVarint_eq_canon,
      timestampBody]
  simp

/-! ## The length-backpatch algorithm -/

theorem splice_of_decomp (A body pre v : List Nat) (iLen : Nat)
    (hA : A.length = iLen + v.length) (hpre : A.take iLen = pre) :
    splice (A ++ body) iLen v = pre ++ v ++ body := by
  rw [splice]
  have h1 : (A ++ body).take iLen = pre := by
    rw [List.take_append_of_le_length (by omega), hpre]
  have h2 : (A ++ body).drop (iLen + v.length) = body := by
    rw [← hA, List.drop_left]
  rw [h1, h2]

/-- The heart of claim C3: after the nested encoder has appended `body`
behind the 4-byte placeholder, the backpatch of `enc_len_thing`
(encode.go 1285-1300) leaves the buffer as prior contents, then the
varint of the body length, then the body. -/
theorem enc_len_post_spec (pre body : List Nat) :
    enc_len_post pre.length (pre ++ [0, 0, 0, 0] ++ body) =
      pre ++ varintCanon body.length ++ body := by
  set iLen := pre.length with hiLen
  set full := pre ++ [0, 0, 0, 0] ++ body with hfull
  have hflen : full.length = iLen + 4 + body.length := by
    simp [hfull, hiLen]
    omega
  have hlMsg : full.length - (iLen + 4) = body.length := by omega
  have hassoc : full = (pre ++ [0, 0, 0, 0]) ++ body := by simp [hfull]
  have hdrop : full.drop (iLen + 4) = body := by
    rw [hassoc]
    have h4 : (pre ++ [0, 0, 0, 0]).length = iLen + 4 := by simp [hiLen]
    rw [← h4, List.drop_left]
  have hv : EncodeVarint [] (body.length) = varintCanon body.length := by
    simpa using EncodeVarint_eq_canon [] body.length
  have hvlen : (varintCanon body.length).length = SizeVarint body.length :=
    (SizeVarint_eq_canon_length body.length).symm
  have htake_pre : full.take iLen = pre := by
    have h := List.take_left pre ([0, 0, 0, 0] ++ body)
    simpa [hfull] using h
  rw [enc_len_post]
  simp only [hlMsg, hdrop, List.take_length]
  set lLen := SizeVarint body.length with hlLenDef
  have hl1 : 1 ≤ lLen := by
    have := varintCanon_length_pos body.length
    omega
  by_cases hgt : 4 < lLen
  · rw [if_pos hgt, hv]
    apply splice_of_decomp _ _ _ _ iLen
    · rw [List.length_take]
      simp only [List.length_append, List.length_replicate, hflen]
      rw [← hvlen]
      omega
    · rw [List.take_take, min_eq_left (by omega),
        List.take_append_of_le_length (by omega), htake_pre]
  · rw [if_neg hgt]
    by_cases hlt : lLen < 4
    · rw [if_pos hlt, hv]
      apply splice_of_decomp _ _ _ _ iLen
      · rw [List.length_take, ← hvlen]
        omega
      · rw [List.take_take, min_eq_left (by omega), htake_pre]
    · rw [if_neg hlt, hassoc, hv]
      apply splice_of_decomp _ _ _ _ iLen
      · simp [hiLen, ← hvlen]
        omega
      · have h := List.take_left pre ([0, 0, 0, 0] : List Nat)
        rw [List.take_append_of_le_length (by simp [hiLen])]
        simpa [hiLen] using h

/-- C3 restated through `enc_len_thing`. -/
theorem enc_len_thing_spec (pre body : List Nat) :
    enc_len_thing pre body = pre ++ varintCanon body.length ++ body := by
  rw [enc_len_thing, enc_len_post_spec]

/-! ## The encoder engine: append-only behaviour and error recording -/

@[simp] theorem firstErr_none_left (b : Option String) :
    firstErr none b = b := rfl

@[simp] theorem firstErr_none_right (a : Option String) :
    firstErr a none = a := by
  cases a <;> rfl

theorem firstErr_assoc (a b c : Option String) :
    firstErr (firstErr a b) c = firstErr a (firstErr b c) := by
  cases a <;> cases b <;> rfl

theorem firstErr_ite_or (p q : Bool) (e : String) :
    firstErr (if p then some e else none) (if q then some e else none) =
      if (p || q) then some e else none := by
  cases p <;> cases q <;> rfl

theorem noteError_eq (o : Buffer) (e : String) :
    noteError o e = { buf := o.buf, err := firstErr o.err (some e) } := by
  rw [noteError]
  cases h : o.err <;> simp [firstErr, ← h]

theorem getD_append_length (l₁ l₂ : List Nat) (d : Nat) :
    (l₁ ++ l₂).getD l₁.length d = l₂.getD 0 d := by
  rw [List.getD, List.getD, List.get?_eq_getElem?, List.get?_eq_getElem?,
    List.getElem?_append_right (le_refl _)]
  simp

mutual

/-- Every field dispatch appends a byte sequence that does not depend on
the buffer's prior contents (prior bytes are never modified), and
records `errRepeatedHasNil` exactly when it encounters a nil element of
a repeated pointer-to-struct field, keeping any earlier error. -/
theorem enc_field_spec (t : Nat) (v : FVal) (o : Buffer) :
    enc_field o t v =
      { buf := o.buf ++ (enc_field { buf := [], err := none } t v).buf,
        err := firstErr o.err
          (if hasNilFVal v then some errRepeatedHasNil else none) } := by
  cases v with
  | vbool b =>
      cases b <;> simp [enc_field, hasNilFVal, EncodeVarint_eq_canon]
  | vuint x =>
      by_cases hx : x = 0 <;>
        simp [enc_field, hasNilFVal, hx, EncodeVarint_eq_canon]
  | vbytes bs =>
      by_cases hb : bs.length = 0 <;>
        simp [enc_field, hasNilFVal, hb, EncodeRawBytes_eq]
  | vbytesArr bs =>
      by_cases hb : bs.length = 0 <;>
        simp [enc_field, hasNilFVal, hb, EncodeRawBytes_eq]
  | vboolArr bs =>
      by_cases hb : bs.length = 0 <;>
        simp [enc_field, hasNilFVal, hb, EncodeVarint_eq_canon, packBools_eq]
  | vmsg fs =>
      have key : ∀ o' : Buffer, enc_field o' t (FVal.vmsg fs) =
          if (enc_struct { buf := [], err := none } fs).buf = [] then
            { buf := o'.buf,
              err := firstErr o'.err
                (if hasNilFields fs then some errRepeatedHasNil else none) }
          else
            { buf := o'.buf ++ (tagcode t 2 ++
                (varintCanon (enc_struct { buf := [], err := none } fs).buf.length ++
                  (enc_struct { buf := [], err := none } fs).buf)),
              err := firstErr o'.err
                (if hasNilFields fs then some errRepeatedHasNil else none) } := by
        intro o'
        have hin := enc_struct_spec fs
          { buf := (o'.buf ++ tagcode t 2) ++ [0, 0, 0, 0], err := o'.err }
        simp only [enc_field]
        rw [hin]
        dsimp only
        rw [enc_len_post_spec]
        by_cases hd : (enc_struct { buf := [], err := none } fs).buf = []
        · rw [hd]
          simp only [List.length_nil, varintCanon_zero, List.append_nil]
          rw [if_pos ?side]
          case side =>
            refine ⟨by simp only [List.length_append, List.length_cons,
              List.length_nil], ?_⟩
            exact getD_append_length _ [0] 0
          rw [if_pos trivial, List.append_assoc, List.take_left]
        · rw [if_neg hd]
          have hc := varintCanon_length_pos
            (enc_struct { buf := [], err := none } fs).buf.length
          have hdl : 0 < (enc_struct { buf := [], err := none } fs).buf.length :=
            List.length_pos.mpr hd
          rw [if_neg ?cond]
          case cond =>
            intro hcontra
            have := hcontra.1
            simp at this
            omega
          simp [List.append_assoc]
      rw [key o, key { buf := [], err := none }]
      by_cases hd : (enc_struct { buf := [], err := none } fs).buf = [] <;>
        simp [hd, hasNilFVal]
  | vptrmsg m =>
      cases m with
      | none => simp [enc_field, hasNilFVal]
      | some fs =>
          have key : ∀ o' : Buffer, enc_field o' t (FVal.vptrmsg (some fs)) =
              { buf := o'.buf ++ (tagcode t 2 ++
                  (varintCanon (enc_struct { buf := [], err := none } fs).buf.length ++
                    (enc_struct { buf := [], err := none } fs).buf)),
                err := firstErr o'.err
                  (if hasNilFields fs then some errRepeatedHasNil else none) } := by
            intro o'
            have hin := enc_struct_spec fs
              { buf := (o'.buf ++ tagcode t 2) ++ [0, 0, 0, 0], err := o'.err }
            simp only [enc_field]
            rw [hin]
            dsimp only
            rw [enc_len_post_spec]
            simp [List.append_assoc]
          rw [key o, key { buf := [], err := none }]
          simp [hasNilFVal]
  | vslcptrmsg ms =>
      have h := enc_slice_spec ms t o
      simp only [enc_field, hasNilFVal]
      exact h
  | vtime s n =>
      have key : ∀ o' : Buffer, enc_field o' t (FVal.vtime s n) =
          { buf := o'.buf ++ (tagcode t 2 ++
              (varintCanon (timestampBody s n).length ++ timestampBody s n)),
            err := o'.err } := by
        intro o'
        simp only [enc_field]
        rw [EncodeTimestamp_eq, enc_len_post_spec]
        have hc := varintCanon_length_pos (timestampBody s n).length
        have hb : 0 < (timestampBody s n).length := by
          rw [timestampBody]
          simp
        rw [if_neg ?cond]
        case cond =>
          intro hcontra
          have := hcontra.1
          simp at this
          omega
        simp [List.append_assoc]
      rw [key o, key { buf := [], err := none }]
      simp [hasNilFVal]

/-- `enc_struct` appends the concatenation of its fields' bytes after
the prior buffer contents, and records a nil-element error exactly when
one of its fields contains a reachable nil element. -/
theorem enc_struct_spec (fs : List (Nat × FVal)) (o : Buffer) :
    enc_struct o fs =
      { buf := o.buf ++ (enc_struct { buf := [], err := none } fs).buf,
        err := firstErr o.err
          (if hasNilFields fs then some errRepeatedHasNil else none) } := by
  cases fs with
  | nil => simp [enc_struct, hasNilFields]
  | cons hd rest =>
      obtain ⟨t, v⟩ := hd
      have h1 := enc_field_spec t v o
      have h1nil := enc_field_spec t v { buf := [], err := none }
      have h2 := enc_struct_spec rest (enc_field o t v)
      have h2nil := enc_struct_spec rest (enc_field { buf := [], err := none } t v)
      simp only [enc_struct]
      rw [h2, h2nil, h1, h1nil]
      dsimp only
      simp only [hasNilFields]
      rw [firstErr_assoc, firstErr_ite_or]
      simp [List.append_assoc]

/-- `enc_slice_ptr_struct_message` appends tag/length/body per element
until it reaches a nil element, at which point it records
`errRepeatedHasNil`; its output too is independent of prior buffer
contents. -/
theorem enc_slice_spec (ms : List (Option (List (Nat × FVal)))) (t : Nat)
    (o : Buffer) :
    enc_slice_ptr_struct_message o t ms =
      { buf := o.buf ++
          (enc_slice_ptr_struct_message { buf := [], err := none } t ms).buf,
        err := firstErr o.err
          (if hasNilElems ms then some errRepeatedHasNil else none) } := by
  cases ms with
  | nil => simp [enc_slice_ptr_struct_message, hasNilElems]
  | cons hd rest =>
      cases hd with
      | none =>
          simp only [enc_slice_ptr_struct_message, hasNilElems]
          rw [noteError_eq, noteError_eq]
          simp
      | some fs =>
          have key : ∀ o' : Buffer,
              enc_slice_ptr_struct_message o' t (some fs :: rest) =
                { buf := o'.buf ++ (tagcode t 2 ++
                    (varintCanon (enc_struct { buf := [], err := none } fs).buf.length ++
                      ((enc_struct { buf := [], err := none } fs).buf ++
                        (enc_slice_ptr_struct_message { buf := [], err := none } t rest).buf))),
                  err := firstErr o'.err
                    (if (hasNilFields fs || hasNilElems rest) then
                      some errRepeatedHasNil else none) } := by
            intro o'
            have hin := enc_struct_spec fs
              { buf := (o'.buf ++ tagcode t 2) ++ [0, 0, 0, 0], err := o'.err }
            simp only [enc_slice_ptr_struct_message]
            rw [hin]
            dsimp only
            rw [enc_len_post_spec, enc_slice_spec rest t]
            dsimp only
            rw [firstErr_assoc, firstErr_ite_or]
            simp [List.append_assoc]
          rw [key o, key { buf := [], err := none }]
          simp only [hasNilElems]
          simp

end

/-- Closed form of `enc_struct_message` on an embedded struct field: a
body of zero bytes removes the field entirely (tag and length byte
included); otherwise tag, varint length and body are emitted. -/
theorem enc_field_vmsg (t : Nat) (fs : List (Nat × FVal)) (o : Buffer) :
    enc_field o t (FVal.vmsg fs) =
      if (enc_struct { buf := [], err := none } fs).buf = [] then
        { buf := o.buf,
          err := firstErr o.err
            (if hasNilFields fs then some errRepeatedHasNil else none) }
      else
        { buf := o.buf ++ tagcode t 2 ++
            varintCanon (enc_struct { buf := [], err := none } fs).buf.length ++
            (enc_struct { buf := [], err := none } fs).buf,
          err := firstErr o.err
            (if hasNilFields fs then some errRepeatedHasNil else none) } := by
  have hin := enc_struct_spec fs
    { buf := (o.buf ++ tagcode t 2) ++ [0, 0, 0, 0], err := o.err }
  simp only [enc_field]
  rw [hin]
  dsimp only
  rw [enc_len_post_spec]
  by_cases hd : (enc_struct { buf := [], err := none } fs).buf = []
  · rw [hd]
    simp only [List.length_nil, varintCanon_zero, List.append_nil]
    rw [if_pos ?side]
    case side =>
      refine ⟨by simp only [List.length_append, List.length_cons,
        List.length_nil], ?_⟩
      exact getD_append_length _ [0] 0
    rw [if_pos trivial, List.append_assoc, List.take_left]
  · rw [if_neg hd]
    have hc := varintCanon_length_pos
      (enc_struct { buf := [], err := none } fs).buf.length
    have hdl : 0 < (enc_struct { buf := [], err := none } fs).buf.length :=
      List.length_pos.mpr hd
    rw [if_neg ?cond]
    case cond =>
      intro hcontra
      have := hcontra.1
      simp at this
      omega

/-- Closed form of `enc_ptr_struct_message` on a non-nil pointer field:
tag, varint length and body are always emitted, with no elision of an
empty body. -/
theorem enc_field_vptr_some (t : Nat) (fs : List (Nat × FVal)) (o : Buffer) :
    enc_field o t (FVal.vptrmsg (some fs)) =
      { buf := o.buf ++ tagcode t 2 ++
          varintCanon (enc_struct { buf := [], err := none } fs).buf.length ++
          (enc_struct { buf := [], err := none } fs).buf,
        err := firstErr o.err
          (if hasNilFields fs then some errRepeatedHasNil else none) } := by
  have hin := enc_struct_spec fs
    { buf := (o.buf ++ tagcode t 2) ++ [0, 0, 0, 0], err := o.err }
  simp only [enc_field]
  rw [hin]
  dsimp only
  rw [enc_len_post_spec]

/-- Closed form of a `time.Time` field: tag and length wrap the
`EncodeTimestamp` body, and the body is never empty so the
`enc_struct_message` elision never fires. -/
theorem enc_field_vtime (t : Nat) (s n : Int) (o : Buffer) :
    enc_field o t (FVal.vtime s n) =
      { buf := o.buf ++ tagcode t 2 ++
          varintCanon (timestampBody s n).length ++ timestampBody s n,
        err := o.err } := by
  simp only [enc_field]
  rw [EncodeTimestamp_eq, enc_len_post_spec]
  have hc := varintCanon_length_pos (timestampBody s n).length
  have hb : 0 < (timestampBody s n).length := by
    rw [timestampBody]
    simp
  rw [if_neg ?cond]
  case cond =>
    intro hcontra
    have := hcontra.1
    simp at this
    omega

/-- `enc_struct` emits exactly the concatenation of its fields' byte
sequences, in the order the field list is walked. -/
theorem enc_struct_flatten (fs : List (Nat × FVal)) (o : Buffer) :
    (enc_struct o fs).buf =
      o.buf ++ (fs.map (fun f => fieldBytes f.1 f.2)).flatten := by
  induction fs generalizing o with
  | nil => simp [enc_struct]
  | cons hd rest ih =>
      obtain ⟨t, v⟩ := hd
      simp only [enc_struct]
      rw [ih (enc_field o t v), enc_field_spec t v o]
      dsimp only
      simp [fieldBytes, List.append_assoc]

/-! ## Claim C10: EncodeVarint and SizeVarint -/

/-- C10: for every uint64 value `x`, `EncodeVarint` appends exactly
`SizeVarint x` bytes, and those bytes are the standard base-128
little-endian varint encoding of `x` (`varintCanon`: low 7 bits first,
continuation bit 0x80 on every byte but the last), despite the separate
32-bit fast path and 64-bit path; hence the two functions agree on all
inputs, boundary values included. -/
theorem claim_C10 (x : Nat) (hx : x < 2 ^ 64) (buf : List Nat) :
    EncodeVarint buf x = buf ++ varintCanon x ∧
    (EncodeVarint buf x).length = buf.length + SizeVarint x := by
  constructor
  · exact EncodeVarint_eq_canon buf x
  · rw [EncodeVarint_eq_canon, SizeVarint_eq_canon_length]
    simp

theorem claim_C10_witness :
    (2 ^ 63 : Nat) < 2 ^ 64 ∧
    (EncodeVarint [7] (2 ^ 63) = [7] ++ varintCanon (2 ^ 63) ∧
      (EncodeVarint [7] (2 ^ 63)).length = [7].length + SizeVarint (2 ^ 63)) :=
  ⟨by norm_num, claim_C10 (2 ^ 63) (by norm_num) [7]⟩

/-! ## Claim C3: the length-backpatch algorithm -/

theorem varintCanon_length_le (x : Nat) : (varintCanon x).length ≤ x + 1 := by
  induction x using Nat.strong_induction_on with
  | _ x ih =>
    rw [varintCanon]
    by_cases h : x < 128
    · simp [h]
    · have hd := Nat.div_lt_self (by omega : 0 < x) (by omega : 1 < 128)
      have := ih (x / 128) hd
      simp only [dif_neg h, List.length_cons]
      omega

theorem set_append_cons (l₁ : List Nat) (a : Nat) (l₂ : List Nat) (v : Nat) :
    (l₁ ++ a :: l₂).set l₁.length v = l₁ ++ v :: l₂ := by
  induction l₁ with
  | nil => simp
  | cons x xs ih => simp [List.set, ih]

/-- The 1-byte-placeholder backpatch of `encode_appender` (encode.go
559-576), for a self-appender that appends `data`: the result is tag
code, the varint of the data length, then the data — both for the
single-placeholder-byte fast path (`n < 128`) and the shift-right slow
path. -/
theorem encode_appender_append (o : Buffer) (tc : List Nat)
    (pkg tname : String) (data : List Nat) :
    encode_appender o ⟨tc, true, pkg, tname⟩
        (fun b => (b ++ data, none)) true =
      ({ buf := o.buf ++ tc ++ varintCanon data.length ++ data,
         err := o.err }, none) := by
  rw [encode_appender]
  dsimp only
  rw [if_neg (by simp)]
  rw [if_neg (by simp)]
  simp only [eq_self_iff_true, if_true]
  have hlen : (o.buf ++ tc ++ [0] ++ data).length -
      (o.buf ++ tc ++ [0]).length = data.length := by
    simp only [List.length_append, List.length_cons, List.length_nil]
    omega
  have hidx : (o.buf ++ tc ++ [0]).length - 1 = (o.buf ++ tc).length := by
    simp
  rw [hlen, hidx]
  have hsle : (varintCanon data.length).length ≤ data.length + 1 :=
    varintCanon_length_le data.length
  by_cases hn : data.length < 128
  · rw [if_pos hn, List.append_assoc (o.buf ++ tc) [0] data,
      List.singleton_append, set_append_cons, varintCanon_small hn]
    simp [List.append_assoc]
  · rw [if_neg hn]
    have hs : SizeVarint data.length = (varintCanon data.length).length :=
      SizeVarint_eq_canon_length data.length
    have hdrop : (o.buf ++ tc ++ [0] ++ data).drop
        (o.buf ++ tc ++ [0]).length = data := List.drop_left _ _
    have hv : EncodeVarint [] data.length = varintCanon data.length := by
      simpa using EncodeVarint_eq_canon [] data.length
    rw [hdrop, hv, hs]
    have h1 : (List.take ((o.buf ++ tc).length + (varintCanon data.length).length)
        (o.buf ++ tc ++ [0] ++ data)).length =
        (o.buf ++ tc).length + (varintCanon data.length).length := by
      rw [List.length_take]
      simp only [List.length_append, List.length_cons, List.length_nil]
      omega
    have h2 : (List.take ((o.buf ++ tc).length + (varintCanon data.length).length)
        (o.buf ++ tc ++ [0] ++ data)).take (o.buf ++ tc).length =
        o.buf ++ tc := by
      rw [List.take_take, min_eq_left (by omega),
        List.take_append_of_le_length (by simp),
        List.take_append_of_le_length (by simp), List.take_length]
    have hbuf := splice_of_decomp _ data (o.buf ++ tc)
      (varintCanon data.length) ((o.buf ++ tc).length) h1 h2
    rw [hbuf]

/-- C3: for every nested body, `enc_len_thing` leaves the buffer equal
to its prior contents, then the varint of the body length, then the
body (reserving 4 placeholder bytes and shifting right / left when the
real varint length differs); bytes written before the call are never
modified.  The 1-byte-placeholder appender path produces the same
tag/length/body shape. -/
theorem claim_C3 :
    (∀ pre body : List Nat,
        enc_len_thing pre body = pre ++ varintCanon body.length ++ body) ∧
    (∀ (o : Buffer) (tc : List Nat) (pkg tname : String) (data : List Nat),
        encode_appender o ⟨tc, true, pkg, tname⟩
            (fun b => (b ++ data, none)) true =
          ({ buf := o.buf ++ tc ++ varintCanon data.length ++ data,
             err := o.err }, none)) :=
  ⟨enc_len_thing_spec, encode_appender_append⟩

/-! ## Claim C1: ascending tag order -/

theorem sortByTag_perm (fs : List (Nat × FVal)) : (sortByTag fs).Perm fs :=
  List.mergeSort_perm fs _

theorem sortByTag_sorted_le (fs : List (Nat × FVal)) :
    List.Pairwise (fun a b : Nat × FVal => a.1 ≤ b.1) (sortByTag fs) := by
  unfold sortByTag
  have h := @List.sorted_mergeSort (Nat × FVal)
    (fun a b : Nat × FVal => decide (a.1 ≤ b.1))
    (fun a b c hab hbc => by
      simp only [decide_eq_true_eq] at *
      omega)
    (fun a b => by
      simp only [Bool.or_eq_true, decide_eq_true_eq]
      omega)
    fs
  exact h.imp (fun hab => by simpa using hab)

theorem sortByTag_sorted_lt (fs : List (Nat × FVal))
    (hnd : (fs.map Prod.fst).Nodup) :
    List.Pairwise (fun a b : Nat × FVal => a.1 < b.1) (sortByTag fs) := by
  have hle := sortByTag_sorted_le fs
  have hnd' : ((sortByTag fs).map Prod.fst).Nodup :=
    (((sortByTag_perm fs).map Prod.fst).nodup_iff).mpr hnd
  have hne : List.Pairwise (fun a b : Nat × FVal => a.1 ≠ b.1) (sortByTag fs) :=
    List.pairwise_map.mp hnd'
  exact (hle.and hne).imp (fun h => lt_of_le_of_ne h.1 h.2)

/-- C1: with distinct tags (the compiler rejects duplicates), the
compiled field sequence is sorted by strictly ascending tag, the
encoder emits exactly the concatenation of the fields' bytes in that
order, and any permutation of the declaration order compiles to the
same sequence, hence marshals to identical output. -/
theorem claim_C1 (fs fs' : List (Nat × FVal))
    (hnd : (fs.map Prod.fst).Nodup) (hperm : fs'.Perm fs) (o : Buffer) :
    (enc_struct o (sortByTag fs)).buf =
      o.buf ++ ((sortByTag fs).map (fun f => fieldBytes f.1 f.2)).flatten ∧
    List.Pairwise (· < ·) ((sortByTag fs).map Prod.fst) ∧
    sortByTag fs' = sortByTag fs ∧
    MarshalDecl fs' = MarshalDecl fs := by
  have hnd2 : (fs'.map Prod.fst).Nodup := by
    refine ((hperm.map Prod.fst).nodup_iff).mpr hnd
  have hsorted := sortByTag_sorted_lt fs hnd
  have hsorted' := sortByTag_sorted_lt fs' hnd2
  have heq : sortByTag fs' = sortByTag fs := by
    haveI : IsAntisymm (Nat × FVal) (fun a b => a.1 < b.1) :=
      ⟨fun a b hab hba => absurd (lt_trans hab hba) (lt_irrefl _)⟩
    refine List.eq_of_perm_of_sorted ?_ hsorted' hsorted
    exact ((sortByTag_perm fs').trans hperm).trans (sortByTag_perm fs).symm
  refine ⟨enc_struct_flatten _ o, List.pairwise_map.mpr hsorted, heq, ?_⟩
  rw [MarshalDecl, MarshalDecl, heq]

theorem claim_C1_witness :
    ((enc_struct { buf := [], err := none }
        (sortByTag [(9, FVal.vuint 1), (2, FVal.vuint 5)])).buf =
      [] ++ ((sortByTag [(9, FVal.vuint 1), (2, FVal.vuint 5)]).map
        (fun f => fieldBytes f.1 f.2)).flatten ∧
    List.Pairwise (· < ·)
      ((sortByTag [(9, FVal.vuint 1), (2, FVal.vuint 5)]).map Prod.fst) ∧
    sortByTag [(2, FVal.vuint 5), (9, FVal.vuint 1)] =
      sortByTag [(9, FVal.vuint 1), (2, FVal.vuint 5)] ∧
    MarshalDecl [(2, FVal.vuint 5), (9, FVal.vuint 1)] =
      MarshalDecl [(9, FVal.vuint 1), (2, FVal.vuint 5)]) :=
  claim_C1 [(9, FVal.vuint 1), (2, FVal.vuint 5)]
    [(2, FVal.vuint 5), (9, FVal.vuint 1)] (by decide)
    (List.Perm.swap _ _ _) { buf := [], err := none }

/-! ## Claim C2: the zero message invariant -/

theorem enc_len_post_empty (pre : List Nat) :
    enc_len_post pre.length (pre ++ [0, 0, 0, 0]) = pre ++ [0] := by
  have h := enc_len_post_spec pre []
  simpa [varintCanon_zero] using h

mutual

/-- A field at its zero value, of a shape whose zero value elides
(recursively no nonzero-length fixed arrays and no `time.Time`),
appends nothing. -/
theorem enc_field_zero (t : Nat) (v : FVal) (o : Buffer)
    (h1 : isZeroFVal v = true) (h2 : plainFVal v = true) :
    enc_field o t v = o := by
  cases v with
  | vbool b =>
      cases b
      · simp [enc_field]
      · simp [isZeroFVal] at h1
  | vuint x =>
      simp only [isZeroFVal, beq_iff_eq] at h1
      simp [enc_field, h1]
  | vbytes bs =>
      rw [isZeroFVal, List.isEmpty_iff] at h1
      simp [enc_field, h1]
  | vbytesArr bs =>
      rw [plainFVal, List.isEmpty_iff] at h2
      simp [enc_field, h2]
  | vboolArr bs =>
      rw [plainFVal, List.isEmpty_iff] at h2
      simp [enc_field, h2]
  | vmsg fs =>
      have hz : isZeroFields fs = true := by simpa [isZeroFVal] using h1
      have hp : plainFields fs = true := by simpa [plainFVal] using h2
      simp only [enc_field]
      rw [enc_struct_zero fs
        { buf := (o.buf ++ tagcode t 2) ++ [0, 0, 0, 0], err := o.err } hz hp]
      dsimp only
      rw [enc_len_post_empty (o.buf ++ tagcode t 2)]
      rw [if_pos ?side]
      case side =>
        refine ⟨by simp only [List.length_append, List.length_cons,
          List.length_nil], ?_⟩
        exact getD_append_length _ [0] 0
      rw [List.append_assoc, List.take_left]
  | vptrmsg m =>
      cases m with
      | none => simp [enc_field]
      | some fs => simp [isZeroFVal] at h1
  | vslcptrmsg ms =>
      rw [isZeroFVal, List.isEmpty_iff] at h1
      subst h1
      simp [enc_field, enc_slice_ptr_struct_message]
  | vtime s n => simp [plainFVal] at h2

/-- A struct whose fields are all zero and all of eliding shapes
appends nothing. -/
theorem enc_struct_zero (fs : List (Nat × FVal)) (o : Buffer)
    (h1 : isZeroFields fs = true) (h2 : plainFields fs = true) :
    enc_struct o fs = o := by
  cases fs with
  | nil => simp [enc_struct]
  | cons hd rest =>
      obtain ⟨t, v⟩ := hd
      rw [isZeroFields, Bool.and_eq_true] at h1
      rw [plainFields, Bool.and_eq_true] at h2
      simp only [enc_struct]
      rw [enc_field_zero t v o h1.1 h2.1]
      exact enc_struct_zero rest o h1.2 h2.2

end

/-- C2 as amended: encoding a record whose every field holds its type's
zero value appends no bytes, and `Marshal` returns an empty byte slice,
provided no retained field (recursively through embedded structs) is a
fixed-size array of nonzero length or a `time.Time` — those shapes emit
bytes even at the zero value, which is what refutes the claim as
stated. -/
theorem claim_C2_amended (fs : List (Nat × FVal))
    (h1 : isZeroFields fs = true) (h2 : plainFields fs = true) :
    (∀ o, enc_struct o fs = o) ∧ Marshal fs = Except.ok [] := by
  refine ⟨fun o => enc_struct_zero fs o h1 h2, ?_⟩
  simp only [Marshal]
  rw [enc_struct_zero fs { buf := [], err := none } h1 h2]

theorem claim_C2_witness :
    (isZeroFields [(1, FVal.vbool false), (7, FVal.vmsg [(2, FVal.vuint 0)])] = true ∧
     plainFields [(1, FVal.vbool false), (7, FVal.vmsg [(2, FVal.vuint 0)])] = true) ∧
    ((∀ o, enc_struct o
        [(1, FVal.vbool false), (7, FVal.vmsg [(2, FVal.vuint 0)])] = o) ∧
      Marshal [(1, FVal.vbool false), (7, FVal.vmsg [(2, FVal.vuint 0)])] =
        Except.ok []) :=
  ⟨⟨by simp [isZeroFields, isZeroFVal], by simp [plainFields, plainFVal]⟩,
    claim_C2_amended _ (by simp [isZeroFields, isZeroFVal])
      (by simp [plainFields, plainFVal])⟩

/-- Counterexample to C2 as stated: a struct with a single `[1]byte`
field holding its zero value `[0]` — every field is at its type's zero
value, yet `Marshal` emits the tag, the length and the zero byte
(`enc_array_byte` has no elision check). -/
theorem claim_C2_counterexample :
    isZeroFields [(1, FVal.vbytesArr [0])] = true ∧
    Marshal [(1, FVal.vbytesArr [0])] = Except.ok [10, 1, 0] ∧
    Except.ok [10, 1, 0] ≠ (Except.ok [] : Except String (List Nat)) := by
  refine ⟨by simp [isZeroFields, isZeroFVal], ?_, by simp⟩
  have h10 : 1 * 8 % 2 ^ 32 ||| 2 = 10 := by decide
  have htag : tagcode 1 2 = [10] := by
    rw [tagcode, h10, tagcodeLoop]
    simp
  have hraw : EncodeRawBytes [10] [0] = [10, 1, 0] := by decide
  simp [Marshal, enc_struct, enc_field, htag, hraw]

/-! ## Claim C4: nested message elision -/

/-- C4: an embedded struct field whose body encodes to zero bytes
leaves no bytes in the parent (tag and length byte removed); a nil
pointer field emits nothing; a non-nil pointer field whose body encodes
to zero bytes still emits its tag and a zero length byte. -/
theorem claim_C4 (t : Nat) (fs : List (Nat × FVal)) (o : Buffer)
    (hbody : (enc_struct { buf := [], err := none } fs).buf = []) :
    (enc_field o t (FVal.vmsg fs)).buf = o.buf ∧
    enc_field o t (FVal.vptrmsg none) = o ∧
    (enc_field o t (FVal.vptrmsg (some fs))).buf =
      o.buf ++ tagcode t 2 ++ [0] := by
  refine ⟨?_, by simp [enc_field], ?_⟩
  · rw [enc_field_vmsg, if_pos hbody]
  · rw [enc_field_vptr_some, hbody]
    simp [varintCanon_zero]

theorem claim_C4_witness :
    ((enc_struct { buf := [], err := none } [(3, FVal.vbool false)]).buf = []) ∧
    ((enc_field { buf := [5], err := none } 1 (FVal.vmsg [(3, FVal.vbool false)])).buf = [5] ∧
     enc_field { buf := [5], err := none } 1 (FVal.vptrmsg none) =
       { buf := [5], err := none } ∧
     (enc_field { buf := [5], err := none } 1
        (FVal.vptrmsg (some [(3, FVal.vbool false)]))).buf =
       [5] ++ tagcode 1 2 ++ [0]) :=
  ⟨by simp [enc_struct, enc_field], claim_C4 1 [(3, FVal.vbool false)]
    { buf := [5], err := none } (by simp [enc_struct, enc_field])⟩

/-! ## Claim C5: repeated field with nil element -/

/-- C5: whenever the encoder reaches a nil element inside a repeated
pointer-to-struct field, `Marshal` returns the
`protobuf3: repeated field has nil element` error and no bytes —
all-or-nothing from the caller's perspective (`Marshal` discards the
buffer on error, encode.go 230-232). -/
theorem claim_C5 (fs : List (Nat × FVal)) (h : hasNilFields fs = true) :
    Marshal fs = Except.error errRepeatedHasNil := by
  simp only [Marshal]
  rw [enc_struct_spec fs { buf := [], err := none }]
  simp [h]

theorem claim_C5_witness :
    hasNilFields [(1, FVal.vslcptrmsg [some [], none, some []])] = true ∧
    Marshal [(1, FVal.vslcptrmsg [some [], none, some []])] =
      Except.error errRepeatedHasNil :=
  ⟨by simp [hasNilFields, hasNilFVal, hasNilElems],
    claim_C5 _ (by simp [hasNilFields, hasNilFVal, hasNilElems])⟩

/-! ## Claim C7: the timestamp adapter -/

/-- Counterexample to C7 as stated: at one second and zero nanoseconds,
`EncodeTimestamp` still writes the tag-2 nanos field (`[16, 0]`), where
the claim's individually-zero-elided body would omit it. -/
theorem claim_C7_counterexample :
    EncodeTimestamp [] 1 0 = [8, 1, 16, 0] ∧
    claimedTimestampBody 1 0 = [8, 1] ∧
    EncodeTimestamp [] 1 0 ≠ claimedTimestampBody 1 0 := by
  have e1 : EncodeTimestamp [] 1 0 = [8, 1, 16, 0] := by decide
  have e2 : claimedTimestampBody 1 0 = [8, 1] := by
    have hts : toUInt64 1 = 1 := by decide
    simp [claimedTimestampBody, hts, varintCanon]
  exact ⟨e1, e2, by rw [e1, e2]; simp⟩

/-- C7 as amended: a timestamp field splits into whole seconds and
residual nanoseconds and is written as a two-field body — seconds as a
varint under tag 1, nanos as a varint under tag 2, both written
unconditionally (neither field is elided when zero, unlike
`enc_Duration`) — wrapped in the owning field's tag and varint
length. -/
theorem claim_C7_amended (t : Nat) (s n : Int) (o : Buffer) :
    enc_field o t (FVal.vtime s n) =
      { buf := o.buf ++ tagcode t 2 ++
          varintCanon (timestampBody s n).length ++ timestampBody s n,
        err := o.err } ∧
    timestampBody s n =
      8 :: (varintCanon (toUInt64 s) ++ 16 :: varintCanon (toUInt64 n)) :=
  ⟨enc_field_vtime t s n o, rfl⟩

/-! ## Claim C8: the Appender shrink check -/

/-- C8: when `AppendProtobuf3` returns a byte slice shorter than the
buffer it was given, the engine records an error naming the buggy
implementation and `Marshal` fails; an implementation that never
shrinks the buffer (and returns no error of its own) never records any
error. -/
theorem claim_C8 (p : AppenderProps)
    (fn : List Nat → List Nat × Option String)
    (hfn : (fn (p.tagcode ++ (if p.wireBytes then [0] else []))).2 = none)
    (hshrink : (fn (p.tagcode ++ (if p.wireBytes then [0] else []))).1.length <
      (p.tagcode ++ (if p.wireBytes then [0] else [])).length) :
    marshal_appender_field p fn =
      Except.error (buggyAppenderMsg p.pkgPath p.typeName
        (fn (p.tagcode ++ (if p.wireBytes then [0] else []))).1.length) ∧
    (∀ (fn' : List Nat → List Nat × Option String) (o : Buffer) (must : Bool),
        (∀ b, (fn' b).2 = none ∧ b.length ≤ (fn' b).1.length) →
        (encode_appender o p fn' must).2 = none ∧
        (encode_appender o p fn' must).1.err = o.err) := by
  constructor
  · rw [marshal_appender_field, encode_appender]
    dsimp only [List.nil_append]
    rw [hfn]
    dsimp only
    rw [if_pos hshrink]
    rfl
  · intro fn' o must hok
    rw [encode_appender]
    dsimp only
    rw [(hok _).1]
    dsimp only
    rw [if_neg (Nat.not_lt.mpr (hok _).2)]
    split <;> (try split) <;> (try split) <;> exact ⟨rfl, rfl⟩

theorem claim_C8_witness :
    ((buggyFn (([10] : List Nat) ++ (if true then [0] else []))).2 = none ∧
      (buggyFn (([10] : List Nat) ++ (if true then [0] else []))).1.length <
        (([10] : List Nat) ++ (if true then [0] else [])).length) ∧
    (marshal_appender_field ⟨[10], true, "main", "T"⟩ buggyFn =
        Except.error (buggyAppenderMsg "main" "T"
          (buggyFn (([10] : List Nat) ++
            (if true then [0] else []))).1.length) ∧
      (∀ (fn' : List Nat → List Nat × Option String) (o : Buffer)
          (must : Bool),
        (∀ b, (fn' b).2 = none ∧ b.length ≤ (fn' b).1.length) →
        (encode_appender o ⟨[10], true, "main", "T"⟩ fn' must).2 = none ∧
        (encode_appender o ⟨[10], true, "main", "T"⟩ fn' must).1.err =
          o.err)) :=
  ⟨⟨rfl, by decide⟩,
    claim_C8 ⟨[10], true, "main", "T"⟩ buggyFn rfl (by decide)⟩

/-! ## Claims C6 and C9: the schema compiler's cache and field loop -/

theorem cacheSet_lookup_self (c : Cache) (k : String)
    (v : Option (List Nat)) : (cacheSet c k v).lookup k = some v := by
  induction c with
  | nil => simp [cacheSet, List.lookup]
  | cons hd rest ih =>
      obtain ⟨k', v'⟩ := hd
      by_cases h : k' = k
      · simp [cacheSet, h, List.lookup]
      · simp only [cacheSet, if_neg h, List.lookup,
          beq_false_of_ne (Ne.symm h)]
        exact ih

theorem cacheSet_lookup_ne (c : Cache) (k k' : String)
    (v : Option (List Nat)) (h : k' ≠ k) :
    (cacheSet c k v).lookup k' = c.lookup k' := by
  induction c with
  | nil => simp [cacheSet, List.lookup, beq_false_of_ne h]
  | cons hd rest ih =>
      obtain ⟨k'', v''⟩ := hd
      by_cases h2 : k'' = k
      · subst h2
        simp [cacheSet, List.lookup, beq_false_of_ne h]
      · simp only [cacheSet, if_neg h2, List.lookup]
        by_cases h3 : k' = k''
        · simp [h3, List.lookup]
        · simp only [beq_false_of_ne h3]
          exact ih

theorem cacheGrows_refl (c : Cache) : cacheGrows c c := fun _ h => h

theorem cacheGrows_trans {a b c : Cache} (h1 : cacheGrows a b)
    (h2 : cacheGrows b c) : cacheGrows a c := fun k h => h2 k (h1 k h)

theorem cacheGrows_set (c : Cache) (k : String) (v : Option (List Nat)) :
    cacheGrows c (cacheSet c k v) := by
  intro k' h
  by_cases hk : k' = k
  · subst hk
    rw [cacheSet_lookup_self]
    rfl
  · rw [cacheSet_lookup_ne c k k' v hk]
    exact h

theorem uncachedIn_mono (names : List String) (c c' : Cache)
    (h : cacheGrows c c') : uncachedIn names c' ≤ uncachedIn names c := by
  induction names with
  | nil => simp [uncachedIn]
  | cons n rest ih =>
      simp only [uncachedIn, List.filter_cons] at *
      by_cases hc' : (c'.lookup n).isNone = true
      · have hc : (c.lookup n).isNone = true := by
          by_cases hs : (c.lookup n).isSome = true
          · have := h n hs
            rw [Option.isNone_iff_eq_none] at hc'
            rw [hc'] at this
            simp at this
          · rw [Option.not_isSome_iff_eq_none] at hs
            simp [hs]
        simp [hc', hc]
        omega
      · by_cases hc : (c.lookup n).isNone = true
        · simp [hc', hc]
          omega
        · simp [hc', hc]
          exact ih

theorem lookup_mem_map_fst (env : Env) (t : String)
    (fields : List FieldDecl) (h : env.lookup t = some fields) :
    t ∈ env.map Prod.fst := by
  induction env with
  | nil => simp [List.lookup] at h
  | cons hd rest ih =>
      obtain ⟨n, fs⟩ := hd
      rw [List.lookup] at h
      by_cases hn : t = n
      · simp [hn]
      · simp only [beq_false_of_ne hn] at h
        simp [ih h]

theorem uncachedIn_set_lt (names : List String) (c : Cache) (t : String)
    (v : Option (List Nat)) (ht : t ∈ names)
    (hc : (c.lookup t).isNone = true) :
    uncachedIn names (cacheSet c t v) < uncachedIn names c := by
  induction names with
  | nil => simp at ht
  | cons n rest ih =>
      simp only [uncachedIn, List.filter_cons] at *
      by_cases hn : n = t
      · subst hn
        rw [cacheSet_lookup_self]
        have hle := uncachedIn_mono rest c (cacheSet c n v)
          (cacheGrows_set c n v)
        simp only [uncachedIn] at hle
        simp [hc]
        omega
      · rcases List.mem_cons.mp ht with ht1 | ht2
        · exact absurd ht1.symm hn
        · have hlt := ih ht2
          rw [cacheSet_lookup_ne c t n v hn]
          by_cases hcn : (c.lookup n).isNone = true
          · simp [hcn]
            omega
          · simp [hcn]
            exact hlt

/-- A successful compilation only adds cache entries. -/
theorem compile_grows (fuel : Nat) :
    ∀ (env : Env) (cache : Cache) (t : String) (c' : Cache),
      getPropertiesLocked fuel env cache t = CResult.ok c' →
      cacheGrows cache c' := by
  induction fuel with
  | zero =>
      intro env cache t c' h
      simp [getPropertiesLocked] at h
  | succ f ih =>
      have loop : ∀ (fields : List FieldDecl) (env : Env) (sname : String)
          (cache : Cache) (seen : List Nat) (order : List (Nat × Nat))
          (idx : Nat) (c' : Cache) (ord : List (Nat × Nat)),
          fieldLoop f env sname cache seen order idx fields =
            LResult.ok c' ord →
          cacheGrows cache c' := by
        intro fields
        induction fields with
        | nil =>
            intro env sname cache seen order idx c' ord h
            simp only [fieldLoop] at h
            cases h
            exact cacheGrows_refl _
        | cons fd rest ihr =>
            intro env sname cache seen order idx c' ord h
            obtain ⟨fname, spec, sub⟩ := fd
            cases spec with
            | skip =>
                simp only [fieldLoop] at h
                exact ihr env sname cache seen order (idx + 1) c' ord h
            | bad =>
                simp only [fieldLoop] at h
                exact ihr env sname cache seen order (idx + 1) c' ord h
            | tagged tg =>
                simp only [fieldLoop] at h
                cases sub with
                | none =>
                    dsimp only at h
                    by_cases hseen : tg ∈ seen
                    · rw [if_pos hseen] at h
                      cases h
                    · rw [if_neg hseen] at h
                      exact ihr env sname cache (tg :: seen)
                        (order ++ [(tg, idx)]) (idx + 1) c' ord h
                | some t' =>
                    dsimp only at h
                    cases hrec : getPropertiesLocked f env cache t' with
                    | nofuel => rw [hrec] at h; cases h
                    | panic m => rw [hrec] at h; cases h
                    | ok cmid =>
                        rw [hrec] at h
                        dsimp only at h
                        by_cases hseen : tg ∈ seen
                        · rw [if_pos hseen] at h
                          cases h
                        · rw [if_neg hseen] at h
                          exact cacheGrows_trans (ih env cache t' cmid hrec)
                            (ihr env sname cmid (tg :: seen)
                              (order ++ [(tg, idx)]) (idx + 1) c' ord h)
      intro env cache t c' h
      simp only [getPropertiesLocked] at h
      cases hlt : cache.lookup t with
      | some v =>
          rw [hlt] at h
          dsimp only at h
          cases h
          exact cacheGrows_refl _
      | none =>
          rw [hlt] at h
          dsimp only at h
          cases hfl : fieldLoop f env t (cacheSet cache t none) [] [] 0
              ((env.lookup t).getD []) with
          | nofuel => rw [hfl] at h; cases h
          | panic m => rw [hfl] at h; cases h
          | ok cmid ord =>
              rw [hfl] at h
              dsimp only at h
              cases h
              exact cacheGrows_trans (cacheGrows_set cache t none)
                (cacheGrows_trans
                  (loop _ env t _ [] [] 0 cmid ord hfl)
                  (cacheGrows_set cmid t _))

/-- C9's termination core: with fuel exceeding the number of uncached
types, compilation never exhausts the fuel — the placeholder installed
before a type's own fields bounds the recursion depth, so compiling a
self-referential type terminates. -/
theorem compile_nofuel_free (fuel : Nat) :
    ∀ (env : Env) (cache : Cache) (t : String),
      uncachedCount env cache < fuel →
      getPropertiesLocked fuel env cache t ≠ CResult.nofuel := by
  induction fuel with
  | zero =>
      intro env cache t h
      exact absurd h (Nat.not_lt_zero _)
  | succ f ih =>
      have loop : ∀ (fields : List FieldDecl) (env : Env) (sname : String)
          (cache : Cache) (seen : List Nat) (order : List (Nat × Nat))
          (idx : Nat),
          uncachedCount env cache < f →
          fieldLoop f env sname cache seen order idx fields ≠
            LResult.nofuel := by
        intro fields
        induction fields with
        | nil =>
            intro env sname cache seen order idx hmu
            simp [fieldLoop]
        | cons fd rest ihr =>
            intro env sname cache seen order idx hmu
            obtain ⟨fname, spec, sub⟩ := fd
            cases spec with
            | skip =>
                simp only [fieldLoop]
                exact ihr env sname cache seen order (idx + 1) hmu
            | bad =>
                simp only [fieldLoop]
                exact ihr env sname cache seen order (idx + 1) hmu
            | tagged tg =>
                simp only [fieldLoop]
                cases sub with
                | none =>
                    dsimp only
                    by_cases hseen : tg ∈ seen
                    · rw [if_pos hseen]
                      simp
                    · rw [if_neg hseen]
                      exact ihr env sname cache (tg :: seen)
                        (order ++ [(tg, idx)]) (idx + 1) hmu
                | some t' =>
                    dsimp only
                    cases hrec : getPropertiesLocked f env cache t' with
                    | nofuel => exact absurd hrec (ih env cache t' hmu)
                    | panic m => simp
                    | ok cmid =>
                        dsimp only
                        by_cases hseen : tg ∈ seen
                        · rw [if_pos hseen]
                          simp
                        · rw [if_neg hseen]
                          have hgrow := compile_grows f env cache t' cmid hrec
                          have hmu2 : uncachedCount env cmid < f := by
                            have := uncachedIn_mono (env.map Prod.fst)
                              cache cmid hgrow
                            unfold uncachedCount at *
                            omega
                          exact ihr env sname cmid (tg :: seen)
                            (order ++ [(tg, idx)]) (idx + 1) hmu2
      intro env cache t hmu
      simp only [getPropertiesLocked]
      cases hlt : cache.lookup t with
      | some v => simp
      | none =>
          dsimp only
          cases henv : env.lookup t with
          | none =>
              simp [fieldLoop]
          | some fields =>
              dsimp only [Option.getD]
              have hmem := lookup_mem_map_fst env t fields henv
              have hnone : (cache.lookup t).isNone = true := by
                rw [hlt]
                rfl
              have hmu2 : uncachedCount env (cacheSet cache t none) < f := by
                have := uncachedIn_set_lt (env.map Prod.fst) cache t none
                  hmem hnone
                unfold uncachedCount at *
                omega
              have hres := loop fields env t (cacheSet cache t none)
                [] [] 0 hmu2
              cases hfl : fieldLoop f env t (cacheSet cache t none) [] [] 0
                  fields with
              | nofuel => exact absurd hfl hres
              | panic m => simp
              | ok cmid ord => simp

/-- A successful compilation of `t` leaves a cache entry for `t`
(properties.go: `propertiesMap[t] = prop` before returning). -/
theorem compile_complete_entry (fuel : Nat) (env : Env) (cache : Cache)
    (t : String) (c' : Cache)
    (h : getPropertiesLocked fuel env cache t = CResult.ok c') :
    ((c'.lookup t).isSome : Prop) := by
  cases fuel with
  | zero => simp [getPropertiesLocked] at h
  | succ f =>
      simp only [getPropertiesLocked] at h
      cases hlt : cache.lookup t with
      | some v =>
          rw [hlt] at h
          dsimp only at h
          cases h
          rw [hlt]
          rfl
      | none =>
          rw [hlt] at h
          dsimp only at h
          cases hfl : fieldLoop f env t (cacheSet cache t none) [] [] 0
              ((env.lookup t).getD []) with
          | nofuel => rw [hfl] at h; cases h
          | panic m => rw [hfl] at h; cases h
          | ok cmid ord =>
              rw [hfl] at h
              dsimp only at h
              cases h
              rw [cacheSet_lookup_self]
              rfl

/-- A cache hit returns the cache unchanged at any positive fuel: the
memoized schema is served as-is. -/
theorem compile_cached_hit (fuel : Nat) (env : Env) (cache : Cache)
    (t : String) (h : ((cache.lookup t).isSome : Prop)) :
    getPropertiesLocked (fuel + 1) env cache t = CResult.ok cache := by
  simp only [getPropertiesLocked]
  cases hlt : cache.lookup t with
  | some v => rfl
  | none => rw [hlt] at h; simp at h

/-- If the field loop runs to completion, no retained tag repeats: each
retained tag was checked against `seen` and then added to it, so the
retained tags avoid the initial `seen` and are mutually distinct. -/
theorem fieldLoop_ok_tags :
    ∀ (fields : List FieldDecl) (fuel : Nat) (env : Env) (sname : String)
      (cache : Cache) (seen : List Nat) (order : List (Nat × Nat))
      (idx : Nat) (c' : Cache) (ord : List (Nat × Nat)),
      fieldLoop fuel env sname cache seen order idx fields =
        LResult.ok c' ord →
      (∀ tg ∈ retainedTags fields, tg ∉ seen) ∧
        (retainedTags fields).Nodup := by
  intro fields
  induction fields with
  | nil =>
      intro fuel env sname cache seen order idx c' ord h
      simp [retainedTags]
  | cons fd rest ihr =>
      intro fuel env sname cache seen order idx c' ord h
      obtain ⟨fname, spec, sub⟩ := fd
      cases spec with
      | skip =>
          simp only [fieldLoop] at h
          simpa [retainedTags] using
            ihr fuel env sname cache seen order (idx + 1) c' ord h
      | bad =>
          simp only [fieldLoop] at h
          simpa [retainedTags] using
            ihr fuel env sname cache seen order (idx + 1) c' ord h
      | tagged tg =>
          simp only [fieldLoop] at h
          have assemble : ∀ (cmid : Cache),
              tg ∉ seen →
              fieldLoop fuel env sname cmid (tg :: seen)
                (order ++ [(tg, idx)]) (idx + 1) rest = LResult.ok c' ord →
              (∀ x ∈ retainedTags (⟨fname, TagSpec.tagged tg, sub⟩ :: rest),
                x ∉ seen) ∧
                (retainedTags (⟨fname, TagSpec.tagged tg, sub⟩ :: rest)).Nodup := by
            intro cmid hseen hrest
            have hr := ihr fuel env sname cmid (tg :: seen)
              (order ++ [(tg, idx)]) (idx + 1) c' ord hrest
            constructor
            · intro x hx
              simp only [retainedTags, List.mem_cons] at hx
              rcases hx with hx | hx
              · subst hx
                exact hseen
              · exact fun hmem =>
                  hr.1 x hx (List.mem_cons_of_mem tg hmem)
            · simp only [retainedTags, List.nodup_cons]
              exact ⟨fun hmem =>
                hr.1 tg hmem (List.mem_cons_self tg seen), hr.2⟩
          cases sub with
          | none =>
              dsimp only at h
              by_cases hseen : tg ∈ seen
              · rw [if_pos hseen] at h
                cases h
              · rw [if_neg hseen] at h
                exact assemble cache hseen h
          | some t' =>
              dsimp only at h
              cases hrec : getPropertiesLocked fuel env cache t' with
              | nofuel => rw [hrec] at h; cases h
              | panic m => rw [hrec] at h; cases h
              | ok cmid =>
                  rw [hrec] at h
                  dsimp only at h
                  by_cases hseen : tg ∈ seen
                  · rw [if_pos hseen] at h
                    cases h
                  · rw [if_neg hseen] at h
                    exact assemble cmid hseen h

/-- Every panic the compiler can raise is the duplicate-tag panic of
properties.go 744-750: no other abort exists on this path. -/
theorem compile_panic_shape (fuel : Nat) :
    ∀ (env : Env) (cache : Cache) (t : String) (m : String),
      getPropertiesLocked fuel env cache t = CResult.panic m →
      ∃ s fn tg, m = dupTagMsg s fn tg := by
  induction fuel with
  | zero =>
      intro env cache t m h
      simp [getPropertiesLocked] at h
  | succ f ih =>
      have loop : ∀ (fields : List FieldDecl) (env : Env) (sname : String)
          (cache : Cache) (seen : List Nat) (order : List (Nat × Nat))
          (idx : Nat) (m : String),
          fieldLoop f env sname cache seen order idx fields =
            LResult.panic m →
          ∃ s fn tg, m = dupTagMsg s fn tg := by
        intro fields
        induction fields with
        | nil =>
            intro env sname cache seen order idx m h
            simp [fieldLoop] at h
        | cons fd rest ihr =>
            intro env sname cache seen order idx m h
            obtain ⟨fname, spec, sub⟩ := fd
            cases spec with
            | skip =>
                simp only [fieldLoop] at h
                exact ihr env sname cache seen order (idx + 1) m h
            | bad =>
                simp only [fieldLoop] at h
                exact ihr env sname cache seen order (idx + 1) m h
            | tagged tg =>
                simp only [fieldLoop] at h
                cases sub with
                | none =>
                    dsimp only at h
                    by_cases hseen : tg ∈ seen
                    · rw [if_pos hseen] at h
                      cases h
                      exact ⟨sname, fname, tg, rfl⟩
                    · rw [if_neg hseen] at h
                      exact ihr env sname cache (tg :: seen)
                        (order ++ [(tg, idx)]) (idx + 1) m h
                | some t' =>
                    dsimp only at h
                    cases hrec : getPropertiesLocked f env cache t' with
                    | nofuel => rw [hrec] at h; cases h
                    | panic m' =>
                        rw [hrec] at h
                        dsimp only at h
                        cases h
                        exact ih env cache t' _ hrec
                    | ok cmid =>
                        rw [hrec] at h
                        dsimp only at h
                        by_cases hseen : tg ∈ seen
                        · rw [if_pos hseen] at h
                          cases h
                          exact ⟨sname, fname, tg, rfl⟩
                        · rw [if_neg hseen] at h
                          exact ihr env sname cmid (tg :: seen)
                            (order ++ [(tg, idx)]) (idx + 1) m h
      intro env cache t m h
      simp only [getPropertiesLocked] at h
      cases hlt : cache.lookup t with
      | some v =>
          rw [hlt] at h
          dsimp only at h
          cases h
      | none =>
          rw [hlt] at h
          dsimp only at h
          cases hfl : fieldLoop f env t (cacheSet cache t none) [] [] 0
              ((env.lookup t).getD []) with
          | nofuel => rw [hfl] at h; cases h
          | ok cmid ord =>
              rw [hfl] at h
              dsimp only at h
              cases h
          | panic m' =>
              rw [hfl] at h
              dsimp only at h
              cases h
              exact loop _ env t _ [] [] 0 _ hfl

/-- C6: a struct type two of whose retained fields carry the same tag
number never compiles — with enough fuel the schema compiler aborts
with the duplicate-tag panic, and no completed schema is ever produced
or cached for it (`getPropertiesLocked` never returns). -/
theorem claim_C6 (env : Env) (cache : Cache) (t : String)
    (fields : List FieldDecl) (fuel : Nat)
    (henv : env.lookup t = some fields)
    (hcache : cache.lookup t = none)
    (hdup : ¬ (retainedTags fields).Nodup)
    (hfuel : uncachedCount env cache < fuel) :
    (∃ m, getPropertiesLocked fuel env cache t = CResult.panic m ∧
      ∃ s fn tg, m = dupTagMsg s fn tg) ∧
    ∀ c', getPropertiesLocked fuel env cache t ≠ CResult.ok c' := by
  have hnotok : ∀ c',
      getPropertiesLocked fuel env cache t ≠ CResult.ok c' := by
    intro c' h
    cases fuel with
    | zero => simp [getPropertiesLocked] at h
    | succ f =>
        simp only [getPropertiesLocked] at h
        rw [hcache] at h
        dsimp only at h
        rw [henv] at h
        dsimp only [Option.getD] at h
        cases hfl : fieldLoop f env t (cacheSet cache t none) [] [] 0
            fields with
        | nofuel => rw [hfl] at h; cases h
        | panic m => rw [hfl] at h; cases h
        | ok cmid ord =>
            exact hdup (fieldLoop_ok_tags fields f env t
              (cacheSet cache t none) [] [] 0 cmid ord hfl).2
  refine ⟨?_, hnotok⟩
  cases hres : getPropertiesLocked fuel env cache t with
  | ok c' => exact absurd hres (hnotok c')
  | nofuel => exact absurd hres (compile_nofuel_free fuel env cache t hfuel)
  | panic m => exact ⟨m, rfl, compile_panic_shape fuel env cache t m hres⟩

theorem claim_C6_witness :
    (∃ m, getPropertiesLocked 2 dupEnv [] "D" = CResult.panic m ∧
      ∃ s fn tg, m = dupTagMsg s fn tg) ∧
    ∀ c', getPropertiesLocked 2 dupEnv [] "D" ≠ CResult.ok c' :=
  claim_C6 dupEnv [] "D"
    [⟨"A", TagSpec.tagged 5, none⟩, ⟨"B", TagSpec.tagged 5, none⟩] 2
    (by decide) (by decide) (by decide) (by decide)

/-- C9: schema compilation is memoized and terminates on
self-referential types.  With fuel above the number of uncached types
the fueled model never exhausts its fuel (the placeholder installed
before a type's own fields bounds the recursion), a completed
compilation leaves an entry for the type in the cache, and a repeat
call at any positive fuel returns that same cache unchanged. -/
theorem claim_C9 (env : Env) (cache : Cache) (t : String)
    (fuel fuel' : Nat) (c' : Cache)
    (hfuel : uncachedCount env cache < fuel)
    (hok : getPropertiesLocked fuel env cache t = CResult.ok c') :
    ((c'.lookup t).isSome : Prop) ∧
    getPropertiesLocked (fuel' + 1) env c' t = CResult.ok c' ∧
    getPropertiesLocked fuel env cache t ≠ CResult.nofuel := by
  have h1 := compile_complete_entry fuel env cache t c' hok
  exact ⟨h1, compile_cached_hit fuel' env c' t h1,
    compile_nofuel_free fuel env cache t hfuel⟩

theorem claim_C9_witness :
    (getPropertiesLocked 2 recEnv [] "T" =
      CResult.ok [("T", some [0, 1])]) ∧
    ((([("T", some [0, 1])] : Cache).lookup "T").isSome : Prop) ∧
    getPropertiesLocked 1 recEnv [("T", some [0, 1])] "T" =
      CResult.ok [("T", some [0, 1])] ∧
    getPropertiesLocked 2 recEnv [] "T" ≠ CResult.nofuel := by
  have hok : getPropertiesLocked 2 recEnv [] "T" =
      CResult.ok [("T", some [0, 1])] := by
    simp [getPropertiesLocked, fieldLoop, recEnv, cacheSet]
    rw [List.mergeSort_of_sorted (by decide)]
    rfl
  exact ⟨hok, claim_C9 recEnv [] "T" 2 0 [("T", some [0, 1])]
    (by decide) hok⟩

end Protobuf3
